import Mathlib

set_option maxRecDepth 100000

/-!
Verification development for the reactive signals engine in
src/packages/core/src/index.ts.

Modelling conventions (a shallow embedding):
* JS values (signal values and thrown error values) are modelled as `Nat`;
  the identity comparison `!==` of the source becomes decidable equality.
* Signals are identified by `Nat` ids.
* The doubly linked dependency ("sources") list of a computed/effect is
  modelled as a `List` of edge records; the intrusive pointer splices of the
  source become the corresponding purely functional list operations.
* The `signal._node` slot used by `getValue` to find the current evaluator's
  edge for a signal is represented by lookup in the evaluator's sources list:
  after `prepareSources` that slot points to the evaluator's own edge for the
  signal exactly when such an edge exists (we model a single, non-nested
  evaluation, so the `node.target !== evalContext` test coincides with
  "no edge for this signal in the evaluator's list").
-/

namespace Signals

/-- Edge record between a source signal and the current target, the part of
the `Node` type of index.ts that the dependency-list claims are about:
the source's id, the source version the target last observed (`version`),
and the `used` scratch flag of re-tracking. -/
structure SNode where
  signal : Nat
  version : Nat
  used : Bool
deriving DecidableEq, Repr

/-- Lines 251-260 (`prepareSources`): before a re-evaluation every existing
edge's `used` flag is reset to `false` (the `signal._node` slot redirection
is represented by the lookup convention described in the file header). -/
def prepareSources (sources : List SNode) : List SNode :=
  sources.map (fun n => { n with used := false })

/-- Lines 103-162 (`getValue`), the tracked-read bookkeeping for one read of
signal `s`, where `v` is the source's version right after its `peek()`
returned (the `finally` block writes `node.version = signal._version`):
* no edge for `s` yet: allocate a fresh edge at the head of the sources list
  (its `version` is then set to `v` by the `finally` block);
* an edge exists but is not yet `used` this evaluation: mark it used, move it
  to the head, and the `finally` block sets its version to `v`;
* the edge is already `used`: `node` is set to `undefined`, so nothing
  changes (repeated reads are free and skip the version write). -/
def trackRead (sources : List SNode) (s v : Nat) : List SNode :=
  match sources.find? (fun n => n.signal == s) with
  | none => ⟨s, v, true⟩ :: sources
  | some n =>
    if n.used then sources
    else ⟨s, v, true⟩ :: sources.eraseP (fun m => m.signal == s)

/-- Lines 262-292 (`cleanupSources`): walk the mixed sources list, prepending
each `used` edge onto the accumulator (which reverses the list) and dropping
each unused edge (whose unsubscription from the source's dependents list is
outside this model). -/
def cleanupSources : List SNode → List SNode → List SNode
  | [], acc => acc
  | n :: rest, acc => cleanupSources rest (if n.used then n :: acc else acc)

/-- One evaluation's sequence of tracked reads, each a pair of the signal id
read and that signal's version immediately after its peek. -/
def runReads : List SNode → List (Nat × Nat) → List SNode
  | sources, [] => sources
  | sources, (s, v) :: rest => runReads (trackRead sources s v) rest

/-- A completed evaluation of a derived/effect: `prepareSources`, then the
formula's tracked reads, then `cleanupSources`. -/
def evalSources (init : List SNode) (reads : List (Nat × Nat)) : List SNode :=
  cleanupSources (runReads (prepareSources init) reads) []

/-- Distinct signals of a read sequence in first-read-first order, skipping
those already in `seen` (auxiliary accumulator form). -/
def dedupKeepFirstAux (seen : List Nat) : List Nat → List Nat
  | [] => []
  | s :: rest =>
    if seen.contains s then dedupKeepFirstAux seen rest
    else s :: dedupKeepFirstAux (s :: seen) rest

/-- The list of distinct signals of a read sequence in first-read-first
order (the specification-side description of the resulting sources list). -/
def dedupKeepFirst (l : List Nat) : List Nat :=
  dedupKeepFirstAux [] l

/-- Lines 103-163 (`getValue`) as a whole: when `tracking` (there is an
active `evalContext`), the edge bookkeeping of `trackRead` happens around the
source's `peek()`; the `finally` clause writes the post-peek version `vAfter`
into the selected edge whether `peek` returned a value or threw, and the
peek outcome (value or thrown error) is passed through unchanged. -/
def getValueModel (tracking : Bool) (sources : List SNode) (s : Nat)
    (peekRes : Except Nat Nat) (vAfter : Nat) : Except Nat Nat × List SNode :=
  if tracking then (peekRes, trackRead sources s vAfter)
  else (peekRes, sources)

example : (evalSources [] [(0, 1), (1, 1)]).map (·.signal) = [0, 1] := by decide

example : (evalSources [⟨5, 2, true⟩] [(0, 1), (5, 2), (1, 1)]).map (·.signal)
    = [0, 5, 1] := by decide

example : dedupKeepFirst [0, 1, 0, 2, 1] = [0, 1, 2] := by decide

/-- Writable signal state: the value cell and the local version counter of
the `Signal` class (lines 165-180). -/
structure Sig where
  value : Nat
  version : Nat
deriving DecidableEq, Repr

/-- The process-wide counters a source write touches (lines 96-101):
`globalVersion` and `batchIteration`. -/
structure Globals where
  globalVersion : Nat
  batchIteration : Nat
deriving DecidableEq, Repr

/-- Outcome of a source write: either the cycle-detected throw (carrying the
state as it stands when the throw happens) or normal completion carrying the
updated signal, the updated globals, and the ids of the targets notified
during the wrapping batch, in dependents-list order. -/
inductive WriteResult where
  | cycle (s : Sig) (g : Globals)
  | ok (s : Sig) (g : Globals) (notified : List Nat)
deriving DecidableEq, Repr

/-- Lines 225-244 (the `Signal` value setter): if the written value is
identical to the stored one, nothing happens; otherwise the
`batchIteration > 100` guard may throw cycle-detected (before any mutation),
else the value is stored, the local version and `globalVersion` are
incremented, and every target in the dependents list is notified inside a
wrapping batch (here `targets` lists the dependents' ids; the drain the
wrapping batch may perform is modelled by `endBatchModel`). -/
def setValue (s : Sig) (targets : List Nat) (g : Globals) (v : Nat) : WriteResult :=
  if v ≠ s.value then
    if 100 < g.batchIteration then WriteResult.cycle s g
    else WriteResult.ok ⟨v, s.version + 1⟩
      { g with globalVersion := g.globalVersion + 1 } targets
  else WriteResult.ok s g []

/-- Errors thrown inside the engine: the cycle-detected error (line 1-3) or
an arbitrary user error value. -/
inductive Err where
  | cycle
  | user (n : Nat)
deriving DecidableEq, Repr

/-- State of one pass of the `endBatch` drain loop (lines 50-70): the system
state threaded through the callbacks, the re-enqueued effects that will form
the next pass's queue, the first captured error, and the trace of effect
invocations with the error (if any) each one threw. -/
structure PassSt (σ : Type) where
  st : σ
  queue : List Nat
  err : Option Err
  trace : List (Nat × Option Err)
deriving DecidableEq, Repr

/-- Lines 56-69, the inner loop of one drain pass: run each effect of the
pass snapshot in order (its `notified` flag is cleared just before its
callback runs). A callback `cb e s it` returns the new system state, the
error it threw if any (captured only if it is the first), and the ids of the
effects its writes notified, which are pushed LIFO onto the queue for the
next pass. -/
def runPass {σ : Type} (cb : Nat → σ → Nat → σ × Option Err × List Nat)
    (it : Nat) : List Nat → PassSt σ → PassSt σ
  | [], p => p
  | e :: rest, p =>
    let r := cb e p.st it
    runPass cb it rest
      ⟨r.1,
       r.2.2.foldl (fun acc x => x :: acc) p.queue,
       (match p.err with
        | some x => some x
        | none => r.2.1),
       p.trace ++ [(e, r.2.1)]⟩

/-- Result of a completed `endBatch` drain loop: final system state, final
`batchIteration` (before it is reset), first captured error and run trace. -/
structure DrainRes (σ : Type) where
  st : σ
  iter : Nat
  err : Option Err
  trace : List (Nat × Option Err)
deriving DecidableEq, Repr

/-- Lines 50-70, the outer drain loop of `endBatch`: while the queue is
nonempty, take it, increment `batchIteration`, and run the pass; callbacks
may re-enqueue effects, producing further passes. `fuel` bounds the number
of passes so the model is total; `none` means the bound was hit. -/
def drainLoop {σ : Type} (cb : Nat → σ → Nat → σ × Option Err × List Nat) :
    Nat → List Nat → σ → Nat → Option Err → List (Nat × Option Err) →
    Option (DrainRes σ)
  | _, [], s, it, err, tr => some ⟨s, it, err, tr⟩
  | 0, _ :: _, _, _, _, _ => none
  | fuel + 1, e :: q, s, it, err, tr =>
    let p := runPass cb (it + 1) (e :: q) ⟨s, [], err, tr⟩
    drainLoop cb fuel p.queue p.st (it + 1) p.err p.trace

/-- Result of `endBatch`: final system state, final `batchDepth`, final
`batchIteration`, the rethrown error (if any) and the drain trace. -/
structure EndRes (σ : Type) where
  st : σ
  depth : Nat
  iter : Nat
  err : Option Err
  trace : List (Nat × Option Err)
deriving DecidableEq, Repr

/-- Lines 41-77 (`endBatch`): at depth above one just decrement; at the
outermost level drain the queue, then reset `batchIteration` to zero,
decrement `batchDepth`, and rethrow the first captured error if any. -/
def endBatchModel {σ : Type} (cb : Nat → σ → Nat → σ × Option Err × List Nat)
    (fuel depth : Nat) (q : List Nat) (s : σ) (it : Nat) : Option (EndRes σ) :=
  if 1 < depth then some ⟨s, depth - 1, it, none, []⟩
  else
    match drainLoop cb fuel q s it none [] with
    | some r => some ⟨r.st, depth - 1, 0, r.err, r.trace⟩
    | none => none

/-- The feedback effect of scenario 5: the effect reads the signal and
writes back a value that differs by identity (here `value + 1`), going
through `setValue` with itself (`e`) as the sole dependent; a successful
write re-notifies it, a cycle-detected throw is reported as its error. The
system state is the signal paired with `globalVersion`. -/
def cbFeedback (e : Nat) (s : Sig × Nat) (it : Nat) :
    (Sig × Nat) × Option Err × List Nat :=
  match setValue s.1 [e] ⟨s.2, it⟩ (s.1.value + 1) with
  | WriteResult.cycle s0 g0 => ((s0, g0.globalVersion), some Err.cycle, [])
  | WriteResult.ok s1 g1 notified => ((s1, g1.globalVersion), none, notified)

example :
    endBatchModel cbFeedback 102 1 [0] ((⟨0, 0⟩ : Sig), 0) 0 =
      some ⟨((⟨100, 100⟩ : Sig), 100), 0, 0, some Err.cycle,
        List.replicate 100 ((0 : Nat), (none : Option Err)) ++
          [(0, some Err.cycle)]⟩ := by decide

/-- State of a `Computed` node (lines 302-311): the cached `_value` (which
holds the captured error instead when `hasError` is set), the node's own
`_version`, the `_globalVersion` it last verified freshness at, the flag
bits, its sources list and whether its `_targets` list is nonempty. -/
structure CompSt where
  value : Nat
  version : Nat
  globalVersionSeen : Nat
  running : Bool
  notified : Bool
  stale : Bool
  hasError : Bool
  hasTargets : Bool
  sources : List SNode
deriving DecidableEq, Repr

/-- Lines 409-417, the commit step at the end of a recomputation: if the
formula threw (`valueIsError`), or the node was already in error state, or
the freshly computed value differs by identity from the cached one, or this
is the first-ever computation (`version = 0`), store the new value (or
error) with the new error flag and increment the derived's own version;
otherwise leave the node unchanged. -/
def commitComputed (c : CompSt) (valueIsError : Bool) (value : Nat) : CompSt :=
  if valueIsError || c.hasError || c.value != value || c.version == 0 then
    { c with hasError := valueIsError, value := value, version := c.version + 1 }
  else c

/-- Lines 372-390, the source-version scan: walk the sources list in order;
for each edge, if the source's current version no longer matches the edge's
recorded version stop (a change was detected), otherwise peek the source
(swallowing any error; its only modelled consequence is a possible version
change, given by `ver2`) and re-check. Returns `true` when the whole list
matched, i.e. the cached value is still fresh. `ver s` is source `s`'s
version before its peek and `ver2 s` its version after. -/
def scanSources (ver ver2 : Nat → Nat) : List SNode → Bool
  | [] => true
  | n :: rest =>
    if ver n.signal != n.version then false
    else if ver2 n.signal != n.version then false
    else scanSources ver ver2 rest

/-- Outcome of `Computed.peek`: the cycle-detected throw, a rethrown stored
error, or a returned value. -/
inductive PeekOut where
  | cycle
  | thrown (e : Nat)
  | val (v : Nat)
deriving DecidableEq, Repr

/-- Lines 294-300 (`returnComputed`): clear the `running` flag, then rethrow
the stored error if the node is in error state, else return the cached
value. -/
def returnComputed (c : CompSt) : PeekOut × CompSt :=
  let c1 := { c with running := false }
  if c1.hasError then (PeekOut.thrown c1.value, c1) else (PeekOut.val c1.value, c1)

/-- Lines 350-419 (`Computed.peek`): clear `notified`; throw cycle-detected
when re-entered; otherwise set `running` and try, in order, the
still-fresh-with-subscribers fast path, the `globalVersion` fast path, and
the source-version scan (only when the node has computed at least once);
each of these returns the cached value or rethrows the stored error via
`returnComputed` without invoking the formula. Otherwise recompute: the
formula's outcome is the parameter `comp` (a value or a thrown error) and
the sources list it leaves behind after `prepareSources`, its tracked reads
and `cleanupSources` — the behaviour modelled by `evalSources` — is the
parameter `newSrcs`; the commit step is `commitComputed`. The returned
`Bool` records whether the formula was invoked. `g` is the current
`globalVersion`; `ver`/`ver2` are as in `scanSources`. -/
def peekModel (g : Nat) (ver ver2 : Nat → Nat) (comp : Except Nat Nat)
    (newSrcs : List SNode) (c : CompSt) : PeekOut × CompSt × Bool :=
  let c1 := { c with notified := false }
  if c1.running then (PeekOut.cycle, c1, false)
  else
    let c2 := { c1 with running := true }
    if !c2.stale && c2.hasTargets then
      let r := returnComputed c2
      (r.1, r.2, false)
    else
      let c3 := { c2 with stale := false }
      if c3.globalVersionSeen == g then
        let r := returnComputed c3
        (r.1, r.2, false)
      else
        let c4 := { c3 with globalVersionSeen := g }
        if 0 < c4.version && scanSources ver ver2 c4.sources then
          let r := returnComputed c4
          (r.1, r.2, false)
        else
          let isErrVal : Bool × Nat :=
            match comp with
            | Except.ok v => (false, v)
            | Except.error e => (true, e)
          let c5 := commitComputed { c4 with sources := newSrcs } isErrVal.1 isErrVal.2
          let r := returnComputed c5
          (r.1, r.2, true)

/-- C5: writing a value identical (by identity) to the stored one is a
no-op with no version bump and no notification; writing a differing value
stores it, increments the signal's local version and `globalVersion`, and
notifies every dependent once — so a repeated `write(v)` produces exactly
one notification pass when `v` differed from the prior value. -/
theorem write_idempotent (s : Sig) (targets : List Nat) (g : Globals) (v : Nat)
    (hit : g.batchIteration ≤ 100) :
    (v = s.value → setValue s targets g v = WriteResult.ok s g []) ∧
    (v ≠ s.value →
      setValue s targets g v =
        WriteResult.ok ⟨v, s.version + 1⟩ ⟨g.globalVersion + 1, g.batchIteration⟩
          targets ∧
      setValue ⟨v, s.version + 1⟩ targets ⟨g.globalVersion + 1, g.batchIteration⟩ v =
        WriteResult.ok ⟨v, s.version + 1⟩ ⟨g.globalVersion + 1, g.batchIteration⟩
          []) := by
  obtain ⟨gv, bi⟩ := g
  refine ⟨fun h => by simp [setValue, h], fun h => ⟨?_, ?_⟩⟩
  · simp only [Globals.batchIteration] at hit
    simp [setValue, h, Nat.not_lt.mpr hit]
  · simp [setValue]

/-- Witness for `write_idempotent` at a concrete input. -/
theorem write_idempotent_witness :
    setValue ⟨0, 0⟩ [7] ⟨0, 0⟩ 1 = WriteResult.ok ⟨1, 1⟩ ⟨1, 0⟩ [7] ∧
    setValue ⟨1, 1⟩ [7] ⟨1, 0⟩ 1 = WriteResult.ok ⟨1, 1⟩ ⟨1, 0⟩ [] :=
  (write_idempotent ⟨0, 0⟩ [7] ⟨0, 0⟩ 1 (by decide)).2 (by decide)

/-- C9: when the write guard fires (`batchIteration > 100` and the new value
differs by identity) the write throws cycle-detected with the signal value,
its local version and `globalVersion` all unchanged and no dependent
notified; and a write of a value identical to the stored one never throws,
whatever `batchIteration` is. -/
theorem write_guard_preserves_state (s : Sig) (targets : List Nat) (g : Globals)
    (v : Nat) :
    (v ≠ s.value → 100 < g.batchIteration →
      setValue s targets g v = WriteResult.cycle s g) ∧
    (v = s.value → setValue s targets g v = WriteResult.ok s g []) := by
  refine ⟨fun h hg => by simp [setValue, h, hg], fun h => by simp [setValue, h]⟩

/-- Witness for `write_guard_preserves_state` at a concrete input. -/
theorem write_guard_preserves_state_witness :
    setValue ⟨0, 4⟩ [3] ⟨5, 101⟩ 2 = WriteResult.cycle ⟨0, 4⟩ ⟨5, 101⟩ :=
  (write_guard_preserves_state ⟨0, 4⟩ [3] ⟨5, 101⟩ 2).1 (by decide) (by decide)

/-- C4: the feedback effect that writes to a source it reads trips the
`batchIteration > 100` write guard: the drain runs the effect exactly 101
times, the first 100 passes complete and re-enqueue it, the write of the
101st pass throws cycle-detected, and `endBatch` then resets
`batchIteration` to 0, decrements `batchDepth` and rethrows the captured
cycle-detected error. -/
theorem effect_feedback_cycle_after_100 :
    endBatchModel cbFeedback 102 1 [0] ((⟨0, 0⟩ : Sig), 0) 0 =
      some ⟨((⟨100, 100⟩ : Sig), 100), 0, 0, some Err.cycle,
        List.replicate 100 ((0 : Nat), (none : Option Err)) ++
          [(0, some Err.cycle)]⟩ := by decide

/-- C3 counterexample: a recomputation (the first-ever one, with the
formula returning the value already cached from the constructor) increments
the derived's version although neither the cached value nor the error state
changed, refuting the claimed "increases if and only if". -/
theorem version_bump_iff_change_fails_on_first_compute :
    (peekModel 1 (fun _ => 0) (fun _ => 0) (Except.ok 0) []
        ⟨0, 0, 0, false, false, true, false, false, []⟩).2.2 = true ∧
    (peekModel 1 (fun _ => 0) (fun _ => 0) (Except.ok 0) []
        ⟨0, 0, 0, false, false, true, false, false, []⟩).2.1.version = 1 ∧
    (peekModel 1 (fun _ => 0) (fun _ => 0) (Except.ok 0) []
        ⟨0, 0, 0, false, false, true, false, false, []⟩).2.1.value = 0 ∧
    (peekModel 1 (fun _ => 0) (fun _ => 0) (Except.ok 0) []
        ⟨0, 0, 0, false, false, true, false, false, []⟩).2.1.hasError = false ∧
    ¬(1 > 0 ↔ ((0 : Nat) ≠ 0 ∨ false ≠ false)) := by decide

/-- C3 amended: a derived's version increases on a recomputation iff the
formula threw, or the node was already in error state, or the new value
differs by identity from the cached one, or this is the first-ever
computation; and when it does not increase the node is entirely
unchanged. -/
theorem version_bump_iff_amended (c : CompSt) (e : Bool) (v : Nat) :
    ((commitComputed c e v).version > c.version ↔
      (e = true ∨ c.hasError = true ∨ v ≠ c.value ∨ c.version = 0)) ∧
    ((commitComputed c e v).version = c.version → commitComputed c e v = c) := by
  unfold commitComputed
  by_cases hcond : (e || c.hasError || c.value != v || c.version == 0) = true
  · rw [if_pos hcond]
    simp only [Bool.or_eq_true, bne_iff_ne, beq_iff_eq, ne_eq] at hcond
    refine ⟨⟨fun _ => ?_, fun _ => Nat.lt_succ_self _⟩, fun h => absurd h (by simp)⟩
    rcases hcond with ((h | h) | h) | h
    · exact Or.inl h
    · exact Or.inr (Or.inl h)
    · exact Or.inr (Or.inr (Or.inl (Ne.symm h)))
    · exact Or.inr (Or.inr (Or.inr h))
  · rw [if_neg hcond]
    simp only [Bool.or_eq_true, bne_iff_ne, beq_iff_eq, ne_eq, not_or, not_not,
      Bool.not_eq_true] at hcond
    obtain ⟨⟨⟨he, hh⟩, hv⟩, h0⟩ := hcond
    exact ⟨by simp [he, hh, hv, h0, lt_irrefl], fun _ => rfl⟩

/-- C10: in a tracked read that installs or refreshes an edge (the signal
was not already read during this evaluation), the `finally` block records
the source's post-peek version on the edge even when the peek throws, and
the thrown error still propagates to the caller. -/
theorem tracked_read_version_on_throw (sources : List SNode) (s vAfter e : Nat)
    (h : ∀ n, sources.find? (fun m => m.signal == s) = some n → n.used = false) :
    (getValueModel true sources s (Except.error e) vAfter).1 = Except.error e ∧
    (getValueModel true sources s (Except.error e) vAfter).2.head? =
      some ⟨s, vAfter, true⟩ := by
  refine ⟨rfl, ?_⟩
  show (trackRead sources s vAfter).head? = some ⟨s, vAfter, true⟩
  unfold trackRead
  cases hfind : sources.find? (fun n => n.signal == s) with
  | none => rfl
  | some n => simp [h n hfind]

/-- Witness for `tracked_read_version_on_throw` at a concrete input. -/
theorem tracked_read_version_on_throw_witness :
    (getValueModel true [] 0 (Except.error 9) 3).1 = Except.error 9 ∧
    (getValueModel true [] 0 (Except.error 9) 3).2.head? = some ⟨0, 3, true⟩ :=
  tracked_read_version_on_throw [] 0 3 9 (fun _ h => Option.noConfusion h)

/-- When every edge's recorded version matches its source's version both
before and after the source's peek, the source-version scan reports the
cached value as fresh. -/
theorem scanSources_of_match (ver ver2 : Nat → Nat) :
    ∀ l : List SNode,
    (∀ n ∈ l, ver n.signal = n.version ∧ ver2 n.signal = n.version) →
    scanSources ver ver2 l = true := by
  intro l
  induction l with
  | nil => intro _; rfl
  | cons n rest ih =>
    intro h
    have h1 := h n (List.mem_cons_self _ _)
    simp only [scanSources, h1.1, h1.2, bne_self_eq_false, Bool.false_eq_true,
      if_false]
    exact ih fun m hm => h m (List.mem_cons_of_mem _ hm)

/-- C6: if no direct or transitive source has changed since the derived's
last read — every edge's recorded version matches its source's current
version and peeking the sources changes nothing — a read with `version > 0`
returns the cached value (or rethrows the cached error) without invoking the
formula, through whichever of the three fast paths applies. -/
theorem fresh_read_returns_cached (c : CompSt) (g : Nat) (ver ver2 : Nat → Nat)
    (comp : Except Nat Nat) (newSrcs : List SNode)
    (hrun : c.running = false) (hver : 0 < c.version)
    (hmatch : ∀ n ∈ c.sources,
      ver n.signal = n.version ∧ ver2 n.signal = n.version) :
    (peekModel g ver ver2 comp newSrcs c).2.2 = false ∧
    (peekModel g ver ver2 comp newSrcs c).1 =
      (if c.hasError then PeekOut.thrown c.value else PeekOut.val c.value) ∧
    (peekModel g ver ver2 comp newSrcs c).2.1.value = c.value ∧
    (peekModel g ver ver2 comp newSrcs c).2.1.hasError = c.hasError ∧
    (peekModel g ver ver2 comp newSrcs c).2.1.version = c.version := by
  have hscan := scanSources_of_match ver ver2 c.sources hmatch
  obtain ⟨val, vers, gvs, run, ntf, stl, herr, htg, srcs⟩ := c
  dsimp only at hrun hver hscan ⊢
  subst hrun
  cases stl <;> cases htg <;> by_cases hg : gvs = g <;> cases herr <;>
    simp [peekModel, returnComputed, hg, hscan, hver]

/-- Witness for `fresh_read_returns_cached` at a concrete input. -/
theorem fresh_read_returns_cached_witness :
    ((⟨7, 1, 0, false, false, false, false, false, [⟨0, 5, true⟩]⟩ :
        CompSt).running = false ∧
      0 < (⟨7, 1, 0, false, false, false, false, false, [⟨0, 5, true⟩]⟩ :
        CompSt).version) ∧
    (peekModel 3 (fun _ => 5) (fun _ => 5) (Except.ok 99) []
        ⟨7, 1, 0, false, false, false, false, false, [⟨0, 5, true⟩]⟩).2.2 =
      false ∧
    (peekModel 3 (fun _ => 5) (fun _ => 5) (Except.ok 99) []
        ⟨7, 1, 0, false, false, false, false, false, [⟨0, 5, true⟩]⟩).1 =
      (if (⟨7, 1, 0, false, false, false, false, false, [⟨0, 5, true⟩]⟩ :
          CompSt).hasError then
        PeekOut.thrown 7
      else PeekOut.val 7) ∧
    (peekModel 3 (fun _ => 5) (fun _ => 5) (Except.ok 99) []
        ⟨7, 1, 0, false, false, false, false, false, [⟨0, 5, true⟩]⟩).2.1.value =
      7 ∧
    (peekModel 3 (fun _ => 5) (fun _ => 5) (Except.ok 99) []
        ⟨7, 1, 0, false, false, false, false, false, [⟨0, 5, true⟩]⟩).2.1.hasError =
      false ∧
    (peekModel 3 (fun _ => 5) (fun _ => 5) (Except.ok 99) []
        ⟨7, 1, 0, false, false, false, false, false, [⟨0, 5, true⟩]⟩).2.1.version =
      1 :=
  ⟨⟨by decide, by decide⟩,
    fresh_read_returns_cached
      ⟨7, 1, 0, false, false, false, false, false, [⟨0, 5, true⟩]⟩ 3
      (fun _ => 5) (fun _ => 5) (Except.ok 99) [] (by decide) (by decide)
      (by decide)⟩

/-- C8: a formula error is captured — when the recomputation runs and the
formula throws, the node enters the error state with the error stored in
place of the value and the peek rethrows it; any later read that does not
recompute rethrows the stored error unchanged; and a recomputation whose
formula returns normally clears the error state and returns the new
value. -/
theorem formula_error_capture_and_clear (c : CompSt) (g : Nat)
    (ver ver2 : Nat → Nat) (comp : Except Nat Nat) (newSrcs : List SNode)
    (hrun : c.running = false) :
    ((peekModel g ver ver2 comp newSrcs c).2.2 = true →
      (∀ e, comp = Except.error e →
        (peekModel g ver ver2 comp newSrcs c).2.1.hasError = true ∧
        (peekModel g ver ver2 comp newSrcs c).2.1.value = e ∧
        (peekModel g ver ver2 comp newSrcs c).1 = PeekOut.thrown e) ∧
      (∀ v, comp = Except.ok v →
        (peekModel g ver ver2 comp newSrcs c).2.1.hasError = false ∧
        (peekModel g ver ver2 comp newSrcs c).1 = PeekOut.val v)) ∧
    ((peekModel g ver ver2 comp newSrcs c).2.2 = false →
      (peekModel g ver ver2 comp newSrcs c).2.1.hasError = c.hasError ∧
      (peekModel g ver ver2 comp newSrcs c).2.1.value = c.value ∧
      (peekModel g ver ver2 comp newSrcs c).1 =
        (if c.hasError then PeekOut.thrown c.value else PeekOut.val c.value)) := by
  obtain ⟨val, vers, gvs, run, ntf, stl, herr, htg, srcs⟩ := c
  dsimp only at hrun ⊢
  subst hrun
  cases comp with
  | error e0 =>
    cases stl <;> cases htg <;> by_cases hg : gvs = g <;>
      by_cases hs : (decide (0 < vers) && scanSources ver ver2 srcs) = true <;>
      cases herr <;>
      simp [peekModel, returnComputed, commitComputed, hg, hs]
  | ok v0 =>
    cases stl <;> cases htg <;> by_cases hg : gvs = g <;>
      by_cases hs : (decide (0 < vers) && scanSources ver ver2 srcs) = true <;>
      cases herr <;> by_cases hv : val = v0 <;>
      simp [peekModel, returnComputed, commitComputed, hg, hs, hv] <;>
      split <;> simp_all

/-- Witness for `formula_error_capture_and_clear` at a concrete input. -/
theorem formula_error_capture_and_clear_witness :
    (⟨0, 0, 0, false, false, true, false, false, []⟩ : CompSt).running =
      false ∧
    (peekModel 5 (fun _ => 0) (fun _ => 0) (Except.error 42) []
        ⟨0, 0, 0, false, false, true, false, false, []⟩).2.1.hasError = true ∧
    (peekModel 5 (fun _ => 0) (fun _ => 0) (Except.error 42) []
        ⟨0, 0, 0, false, false, true, false, false, []⟩).2.1.value = 42 ∧
    (peekModel 5 (fun _ => 0) (fun _ => 0) (Except.error 42) []
        ⟨0, 0, 0, false, false, true, false, false, []⟩).1 =
      PeekOut.thrown 42 :=
  ⟨by decide,
    ((formula_error_capture_and_clear
          ⟨0, 0, 0, false, false, true, false, false, []⟩ 5 (fun _ => 0)
          (fun _ => 0) (Except.error 42) [] (by decide)).1 (by decide)).1 42
      rfl⟩

/-- One drain pass appends one trace entry per effect of the pass snapshot,
in order, and its captured error is the previously captured one if any, else
the first error thrown during the pass. -/
theorem runPass_spec {σ : Type} (cb : Nat → σ → Nat → σ × Option Err × List Nat)
    (it : Nat) : ∀ (l : List Nat) (p : PassSt σ),
    ∃ t, (runPass cb it l p).trace = p.trace ++ t ∧
      t.map Prod.fst = l ∧
      (runPass cb it l p).err = p.err.or ((t.filterMap Prod.snd).head?) := by
  intro l
  induction l with
  | nil =>
    intro p
    exact ⟨[], by simp [runPass], by simp, by simp [runPass, Option.or_none]⟩
  | cons e rest ih =>
    intro p
    obtain ⟨t, ht, hm, he⟩ := ih
      ⟨(cb e p.st it).1,
       (cb e p.st it).2.2.foldl (fun acc x => x :: acc) p.queue,
       (match p.err with
        | some x => some x
        | none => (cb e p.st it).2.1),
       p.trace ++ [(e, (cb e p.st it).2.1)]⟩
    refine ⟨(e, (cb e p.st it).2.1) :: t, ?_, ?_, ?_⟩
    · simp only [runPass]
      rw [ht]
      simp
    · simp [hm]
    · simp only [runPass]
      rw [he]
      rcases hpe : p.err with _ | x <;>
        rcases hce : (cb e p.st it).2.1 with _ | y <;>
        simp [hpe, hce, List.filterMap_cons]

/-- A completed drain appends a trace containing every effect of the initial
queue, and its captured error is the previously captured one if any, else
the first error of the appended trace. -/
theorem drainLoop_spec {σ : Type}
    (cb : Nat → σ → Nat → σ × Option Err × List Nat) :
    ∀ (fuel : Nat) (q : List Nat) (s : σ) (it : Nat) (err : Option Err)
      (tr : List (Nat × Option Err)) (r : DrainRes σ),
    drainLoop cb fuel q s it err tr = some r →
    ∃ t, r.trace = tr ++ t ∧ (∀ e ∈ q, e ∈ t.map Prod.fst) ∧
      r.err = err.or ((t.filterMap Prod.snd).head?) := by
  intro fuel
  induction fuel with
  | zero =>
    intro q s it err tr r h
    cases q with
    | nil =>
      simp only [drainLoop] at h
      cases h
      exact ⟨[], by simp, by simp, by cases err <;> simp⟩
    | cons e rest =>
      simp only [drainLoop] at h
      exact Option.noConfusion h
  | succ fuel ih =>
    intro q s it err tr r h
    cases q with
    | nil =>
      simp only [drainLoop] at h
      cases h
      exact ⟨[], by simp, by simp, by cases err <;> simp⟩
    | cons e rest =>
      simp only [drainLoop] at h
      obtain ⟨t1, ht1, hm1, he1⟩ :=
        runPass_spec cb (it + 1) (e :: rest) ⟨s, [], err, tr⟩
      obtain ⟨t2, ht2, hm2, he2⟩ := ih _ _ _ _ _ _ h
      refine ⟨t1 ++ t2, ?_, ?_, ?_⟩
      · rw [ht2, ht1]
        simp
      · intro x hx
        have hx1 : x ∈ t1.map Prod.fst := by rw [hm1]; exact hx
        simp only [List.map_append, List.mem_append]
        exact Or.inl hx1
      · rw [he2, he1, List.filterMap_append, List.head?_append]
        cases err <;> cases ho : (t1.filterMap Prod.snd).head? <;> simp [ho]

/-- C7: during a batch drain at the outermost level, every effect of the
pending queue runs (it appears in the trace), the rethrown error is the
first error thrown across the whole trace (subsequent effects having still
run), and after the drain `batchIteration` is reset to 0 and `batchDepth`
is decremented to 0. -/
theorem endBatch_drain_first_error {σ : Type}
    (cb : Nat → σ → Nat → σ × Option Err × List Nat) (fuel : Nat)
    (q : List Nat) (s : σ) (it : Nat) (r : EndRes σ)
    (h : endBatchModel cb fuel 1 q s it = some r) :
    r.depth = 0 ∧ r.iter = 0 ∧
    r.err = (r.trace.filterMap Prod.snd).head? ∧
    (∀ e ∈ q, e ∈ r.trace.map Prod.fst) := by
  unfold endBatchModel at h
  rw [if_neg (by omega)] at h
  cases hd : drainLoop cb fuel q s it none [] with
  | none => rw [hd] at h; cases h
  | some d =>
    rw [hd] at h
    cases h
    obtain ⟨t, ht, hm, he⟩ := drainLoop_spec cb fuel q s it none [] d hd
    have htr : d.trace = t := by simpa using ht
    refine ⟨rfl, rfl, ?_, ?_⟩
    · show d.err = (d.trace.filterMap Prod.snd).head?
      rw [htr, he]
      simp [Option.or]
    · intro x hx
      show x ∈ d.trace.map Prod.fst
      rw [htr]
      exact hm x hx

/-- Witness for `endBatch_drain_first_error` at a concrete input: two
pending effects, the first throwing, the second still running. -/
theorem endBatch_drain_first_error_witness :
    endBatchModel
        (fun e (_ : Unit) _ =>
          ((), (if e == 1 then some (Err.user 7) else none), ([] : List Nat)))
        1 1 [1, 2] () 0 =
      some ⟨(), 0, 0, some (Err.user 7),
        [(1, some (Err.user 7)), (2, none)]⟩ ∧
    ((⟨(), 0, 0, some (Err.user 7), [(1, some (Err.user 7)), (2, none)]⟩ :
        EndRes Unit).depth = 0 ∧
      (⟨(), 0, 0, some (Err.user 7), [(1, some (Err.user 7)), (2, none)]⟩ :
        EndRes Unit).iter = 0 ∧
      (⟨(), 0, 0, some (Err.user 7), [(1, some (Err.user 7)), (2, none)]⟩ :
          EndRes Unit).err =
        (((⟨(), 0, 0, some (Err.user 7), [(1, some (Err.user 7)), (2, none)]⟩ :
            EndRes Unit).trace.filterMap Prod.snd).head?) ∧
      (∀ e ∈ [1, 2],
        e ∈ (⟨(), 0, 0, some (Err.user 7),
          [(1, some (Err.user 7)), (2, none)]⟩ :
            EndRes Unit).trace.map Prod.fst)) :=
  ⟨by decide,
    endBatch_drain_first_error
      (fun e (_ : Unit) _ =>
        ((), (if e == 1 then some (Err.user 7) else none), ([] : List Nat)))
      1 [1, 2] () 0
      ⟨(), 0, 0, some (Err.user 7), [(1, some (Err.user 7)), (2, none)]⟩
      (by decide)⟩

/-- Mapping the signal ids over an erased-edge list erases the id. -/
theorem map_signal_eraseP (B : List SNode) (s : Nat) :
    (B.eraseP (fun m => m.signal == s)).map (·.signal) =
      ((B.map (·.signal)).erase s) := by
  rw [List.erase_eq_eraseP']
  induction B with
  | nil => rfl
  | cons n rest ih =>
    by_cases h : n.signal = s <;> simp [List.eraseP_cons, h, ih]

/-- A tracked read of a signal already read during this evaluation (its edge
is in the used prefix `A`) leaves the sources list unchanged. -/
theorem trackRead_mem_used (A B : List SNode) (s v : Nat)
    (hA : ∀ n ∈ A, n.used = true) (hsA : s ∈ A.map (·.signal)) :
    trackRead (A ++ B) s v = A ++ B := by
  unfold trackRead
  obtain ⟨n, hnA, hns⟩ := List.mem_map.mp hsA
  have hsome : (A.find? (fun m => m.signal == s)).isSome :=
    List.find?_isSome.mpr ⟨n, hnA, by simp [hns]⟩
  obtain ⟨m, hm⟩ := Option.isSome_iff_exists.mp hsome
  have hmA : m ∈ A := List.mem_of_find?_eq_some hm
  rw [List.find?_append, hm]
  simp [Option.or, hA m hmA]

/-- A tracked read of a signal whose edge survives from the previous
evaluation (it is in the not-yet-used suffix `B`) marks it used and moves it
to the head of the sources list with the fresh version. -/
theorem trackRead_mem_unused (A B : List SNode) (s v : Nat)
    (hB : ∀ n ∈ B, n.used = false) (hsA : s ∉ A.map (·.signal))
    (hsB : s ∈ B.map (·.signal)) :
    trackRead (A ++ B) s v =
      (⟨s, v, true⟩ :: A) ++ B.eraseP (fun m => m.signal == s) := by
  unfold trackRead
  have hfA : A.find? (fun m => m.signal == s) = none := by
    rw [List.find?_eq_none]
    intro x hx
    simp only [beq_iff_eq]
    exact fun h => hsA (List.mem_map.mpr ⟨x, hx, h⟩)
  obtain ⟨n, hnB, hns⟩ := List.mem_map.mp hsB
  have hsome : (B.find? (fun m => m.signal == s)).isSome :=
    List.find?_isSome.mpr ⟨n, hnB, by simp [hns]⟩
  obtain ⟨m, hm⟩ := Option.isSome_iff_exists.mp hsome
  have hmB : m ∈ B := List.mem_of_find?_eq_some hm
  rw [List.find?_append, hfA, Option.none_or, hm]
  have hAkeep : (A ++ B).eraseP (fun m => m.signal == s) =
      A ++ B.eraseP (fun m => m.signal == s) := by
    apply List.eraseP_append_right
    intro b hb
    simp only [beq_iff_eq]
    exact fun h => hsA (List.mem_map.mpr ⟨b, hb, h⟩)
  simp [hB m hmB, hAkeep]

/-- A tracked read of a brand-new dependency pushes a fresh used edge at the
head of the sources list. -/
theorem trackRead_fresh (A B : List SNode) (s v : Nat)
    (hsA : s ∉ A.map (·.signal)) (hsB : s ∉ B.map (·.signal)) :
    trackRead (A ++ B) s v = (⟨s, v, true⟩ :: A) ++ B := by
  unfold trackRead
  have hf : (A ++ B).find? (fun m => m.signal == s) = none := by
    rw [List.find?_eq_none]
    intro x hx
    simp only [beq_iff_eq]
    rcases List.mem_append.mp hx with hxa | hxb
    · exact fun h => hsA (List.mem_map.mpr ⟨x, hxa, h⟩)
    · exact fun h => hsB (List.mem_map.mpr ⟨x, hxb, h⟩)
  rw [hf]
  rfl

/-- Invariant of the tracked-read loop: starting from a used prefix `A`
(edges read so far this evaluation, most recent first) and an untouched
unused suffix `B`, the sources list keeps that shape, and the final used
prefix reversed extends the previous one by the not-yet-seen signals in
first-read order. -/
theorem runReads_split :
    ∀ (rs : List (Nat × Nat)) (A B : List SNode),
    (∀ n ∈ A, n.used = true) → (∀ n ∈ B, n.used = false) →
    ((A ++ B).map (·.signal)).Nodup →
    ∃ A2 B2, runReads (A ++ B) rs = A2 ++ B2 ∧
      (∀ n ∈ A2, n.used = true) ∧ (∀ n ∈ B2, n.used = false) ∧
      ((A2 ++ B2).map (·.signal)).Nodup ∧
      (A2.map (·.signal)).reverse =
        (A.map (·.signal)).reverse ++
          dedupKeepFirstAux (A.map (·.signal)) (rs.map Prod.fst) := by
  intro rs
  induction rs with
  | nil =>
    intro A B hA hB hnd
    exact ⟨A, B, rfl, hA, hB, hnd, by simp [dedupKeepFirstAux]⟩
  | cons sv rest ih =>
    intro A B hA hB hnd
    obtain ⟨s, v⟩ := sv
    have hstep : runReads (A ++ B) ((s, v) :: rest) =
        runReads (trackRead (A ++ B) s v) rest := rfl
    by_cases hsA : s ∈ A.map (·.signal)
    · obtain ⟨A2, B2, heq, hA2, hB2, hnd2, hord⟩ := ih A B hA hB hnd
      refine ⟨A2, B2, ?_, hA2, hB2, hnd2, ?_⟩
      · rw [hstep, trackRead_mem_used A B s v hA hsA]
        exact heq
      · rw [hord]
        simp [dedupKeepFirstAux, hsA]
    · by_cases hsB : s ∈ B.map (·.signal)
      · have hndA : (A.map (·.signal)).Nodup :=
          ((List.nodup_append.mp (by simpa using hnd)).1)
        have hndB : (B.map (·.signal)).Nodup :=
          ((List.nodup_append.mp (by simpa using hnd)).2.1)
        have hBer : (B.eraseP (fun m => m.signal == s)).map (·.signal) =
            (B.map (·.signal)).erase s := map_signal_eraseP B s
        have hsubl :
            ((⟨s, v, true⟩ :: A) ++ B.eraseP (fun m => m.signal == s)).map
                (·.signal) =
              s :: (A.map (·.signal) ++ (B.map (·.signal)).erase s) := by
          simp [hBer]
        have hnd' : (((⟨s, v, true⟩ :: A) ++
            B.eraseP (fun m => m.signal == s)).map (·.signal)).Nodup := by
          rw [hsubl]
          refine List.nodup_cons.mpr ⟨?_, ?_⟩
          · intro hmem
            rcases List.mem_append.mp hmem with h | h
            · exact hsA h
            · exact absurd ((hndB.mem_erase_iff).mp h).1 (by simp)
          · have hsub : List.Sublist
                (A.map (·.signal) ++ (B.map (·.signal)).erase s)
                (A.map (·.signal) ++ B.map (·.signal)) :=
              List.Sublist.append_left (List.erase_sublist _ _) _
            exact hsub.nodup (by simpa using hnd)
        obtain ⟨A2, B2, heq, hA2, hB2, hnd2, hord⟩ :=
          ih (⟨s, v, true⟩ :: A) (B.eraseP (fun m => m.signal == s))
            (by
              intro n hn
              rcases List.mem_cons.mp hn with h | h
              · rw [h]
              · exact hA n h)
            (fun n hn => hB n (List.mem_of_mem_eraseP hn)) hnd'
        refine ⟨A2, B2, ?_, hA2, hB2, hnd2, ?_⟩
        · rw [hstep, trackRead_mem_unused A B s v hB hsA hsB]
          exact heq
        · rw [hord]
          simp [dedupKeepFirstAux, hsA]
      · have hnd' : (((⟨s, v, true⟩ :: A) ++ B).map (·.signal)).Nodup := by
          rw [List.cons_append, List.map_cons, List.nodup_cons]
          refine ⟨?_, by simpa using hnd⟩
          rw [List.map_append]
          intro hmem
          rcases List.mem_append.mp hmem with h | h
          · exact hsA h
          · exact hsB h
        obtain ⟨A2, B2, heq, hA2, hB2, hnd2, hord⟩ :=
          ih (⟨s, v, true⟩ :: A) B
            (by
              intro n hn
              rcases List.mem_cons.mp hn with h | h
              · rw [h]
              · exact hA n h)
            hB hnd'
        refine ⟨A2, B2, ?_, hA2, hB2, hnd2, ?_⟩
        · rw [hstep, trackRead_fresh A B s v hsA hsB]
          exact heq
        · rw [hord]
          simp [dedupKeepFirstAux, hsA]

/-- The cleanup walk equals filtering the used edges and reversing, on top
of the accumulator. -/
theorem cleanupSources_eq (l : List SNode) :
    ∀ acc, cleanupSources l acc = (l.filter (·.used)).reverse ++ acc := by
  induction l with
  | nil => intro acc; simp [cleanupSources]
  | cons n rest ih =>
    intro acc
    by_cases h : n.used = true <;>
      simp [cleanupSources, List.filter_cons, h, ih]

/-- A completed evaluation leaves exactly the signals read, in
first-read-first order, given that the previous sources list had no
duplicate signals. -/
theorem evalSources_spec (init : List SNode) (reads : List (Nat × Nat))
    (hnd : (init.map (·.signal)).Nodup) :
    (evalSources init reads).map (·.signal) =
      dedupKeepFirst (reads.map Prod.fst) := by
  have hB : ∀ n ∈ prepareSources init, n.used = false := by
    intro n hn
    simp only [prepareSources, List.mem_map] at hn
    obtain ⟨m, _, hm⟩ := hn
    rw [← hm]
  have hndp : ((([] : List SNode) ++ prepareSources init).map (·.signal)).Nodup := by
    simpa [prepareSources, List.map_map, Function.comp] using hnd
  obtain ⟨A2, B2, heq, hA2, hB2, hnd2, hord⟩ :=
    runReads_split reads [] (prepareSources init) (by simp) hB hndp
  have heq2 : runReads (prepareSources init) reads = A2 ++ B2 := by
    rwa [List.nil_append] at heq
  unfold evalSources
  rw [heq2, cleanupSources_eq]
  have hfA : (A2.filter (·.used)) = A2 := List.filter_eq_self.mpr
    (fun a ha => by simp [hA2 a ha])
  have hfB : (B2.filter (·.used)) = [] := List.filter_eq_nil_iff.mpr
    (fun a ha => by simp [hB2 a ha])
  rw [List.filter_append, hfA, hfB]
  simp only [List.append_nil, List.map_reverse]
  simpa [dedupKeepFirst] using hord

/-- The distinct-first-reads list never repeats a signal and never lists one
from `seen`. -/
theorem dedupKeepFirstAux_nodup :
    ∀ (l seen : List Nat), ((dedupKeepFirstAux seen l).Nodup ∧
      ∀ x ∈ dedupKeepFirstAux seen l, x ∉ seen) := by
  intro l
  induction l with
  | nil => intro seen; simp [dedupKeepFirstAux]
  | cons s rest ih =>
    intro seen
    by_cases h : s ∈ seen
    · have hc : seen.contains s = true := List.elem_eq_true_of_mem h
      simpa [dedupKeepFirstAux, hc, h] using ih seen
    · have hc : seen.contains s = false := by
        cases hcc : seen.contains s
        · rfl
        · exact absurd (List.elem_iff.mp hcc) h
      obtain ⟨ihn, ihs⟩ := ih (s :: seen)
      have hded : dedupKeepFirstAux seen (s :: rest) =
          s :: dedupKeepFirstAux (s :: seen) rest := by
        simp [dedupKeepFirstAux, hc, h]
      refine ⟨?_, ?_⟩
      · rw [hded]
        exact List.nodup_cons.mpr
          ⟨fun hmem => (ihs s hmem) (List.mem_cons_self _ _), ihn⟩
      · intro x hx
        rw [hded] at hx
        rcases List.mem_cons.mp hx with h1 | h1
        · rw [h1]; exact h
        · exact fun hxs => (ihs x h1) (List.mem_cons_of_mem _ hxs)

/-- C1 counterexample: an evaluation that reads signal 0 and then signal 1
ends with sources list `[0, 1]` — the first dependency read is at the head,
not at the tail, so the list is not in most-recently-observed-first
order. -/
theorem sources_not_mru_first :
    (evalSources [] [(0, 1), (1, 1)]).map (·.signal) = [0, 1] ∧
    (evalSources [] [(0, 1), (1, 1)]).map (·.signal) ≠ [1, 0] := by decide

/-- C1 amended: after a completed evaluation the sources list is in
first-observed-first order — the distinct signals read, in order of first
read — and its head (not its tail) is the first dependency read. -/
theorem sources_first_observed_first (init : List SNode)
    (reads : List (Nat × Nat)) (hnd : (init.map (·.signal)).Nodup) :
    (evalSources init reads).map (·.signal) =
      dedupKeepFirst (reads.map Prod.fst) ∧
    ((evalSources init reads).map (·.signal)).head? =
      (reads.map Prod.fst).head? := by
  have h := evalSources_spec init reads hnd
  refine ⟨h, ?_⟩
  rw [h]
  cases reads with
  | nil => rfl
  | cons r rest => simp [dedupKeepFirst, dedupKeepFirstAux]

/-- Witness for `sources_first_observed_first` at a concrete input. -/
theorem sources_first_observed_first_witness :
    (([⟨5, 2, true⟩] : List SNode).map (·.signal)).Nodup ∧
    ((evalSources [⟨5, 2, true⟩] [(0, 1), (5, 2), (1, 1)]).map (·.signal) =
      dedupKeepFirst [0, 5, 1] ∧
    ((evalSources [⟨5, 2, true⟩] [(0, 1), (5, 2), (1, 1)]).map
        (·.signal)).head? = ([0, 5, 1] : List Nat).head?) :=
  ⟨by decide,
    sources_first_observed_first [⟨5, 2, true⟩] [(0, 1), (5, 2), (1, 1)]
      (by decide)⟩

/-- C2: after a completed evaluation the sources list has no duplicate edges
for the same source and lists exactly the distinct signals read, in
first-read-first order with the first dependency read at the head. -/
theorem sources_nodup_first_read_order (init : List SNode)
    (reads : List (Nat × Nat)) (hnd : (init.map (·.signal)).Nodup) :
    ((evalSources init reads).map (·.signal)).Nodup ∧
    (evalSources init reads).map (·.signal) =
      dedupKeepFirst (reads.map Prod.fst) := by
  have h := evalSources_spec init reads hnd
  exact ⟨h ▸ (dedupKeepFirstAux_nodup (reads.map Prod.fst) []).1, h⟩

/-- Witness for `sources_nodup_first_read_order` at a concrete input. -/
theorem sources_nodup_first_read_order_witness :
    (([⟨7, 1, false⟩] : List SNode).map (·.signal)).Nodup ∧
    (((evalSources [⟨7, 1, false⟩] [(3, 1), (3, 2), (7, 4)]).map
        (·.signal)).Nodup ∧
    (evalSources [⟨7, 1, false⟩] [(3, 1), (3, 2), (7, 4)]).map (·.signal) =
      dedupKeepFirst [3, 3, 7]) :=
  ⟨by decide,
    sources_nodup_first_read_order [⟨7, 1, false⟩] [(3, 1), (3, 2), (7, 4)]
      (by decide)⟩

end Signals
